import Mathlib

/-!
Verification development for the egem-torch hierarchical geometric GNN
(`src/models/gin/model.py` and its caller `src/inference_regr_transformer.py`).

The development shallowly embeds the tensor-level computations of
`EGeoGNNModel` (masking, the layered forward pass, mean pooling) and of
`EGEM` (backward index resolution for the pretraining heads, loss
accumulation) over rational-valued matrices represented as `List (List ℚ)`
and integer feature matrices represented as `List (List Int)`.

Modules imported by `model.py` from files that are not part of the
sources (`models/gin/encoder.py`, `models/conv.py`,
`datasets/featurizer.py`, and `torch_geometric`'s `global_mean_pool`) are
modelled from the spec as parameters or small explicit definitions:
lookup-table embeddings carry their tables as data, RBF layers and the
message/update networks of `EGeoGNNBlock` are abstract function
parameters, and `global_mean_pool` is a scatter-mean.
-/

namespace Egem

/-! ## Vectors and matrices -/

/-- Matrix of rationals: a list of rows, mirroring a 2-D float tensor. -/
abbrev Mat := List (List ℚ)

/-- Componentwise addition of two vectors; the shorter vector is padded
with zeros, so that on equal-length inputs this is exactly elementwise
tensor addition. -/
def vadd : List ℚ → List ℚ → List ℚ
  | [], ys => ys
  | x :: xs, [] => x :: xs
  | x :: xs, y :: ys => (x + y) :: vadd xs ys

/-- Sum of a list of vectors, mirroring a scatter-sum accumulation
starting from a zero accumulator. -/
def vsumL (rows : List (List ℚ)) : List ℚ :=
  rows.foldl vadd []

/-- Scalar multiple of a vector. -/
def vscale (q : ℚ) (v : List ℚ) : List ℚ :=
  v.map (fun a => q * a)

/-- Rowwise addition of two matrices (elementwise tensor addition). -/
def matAdd (a b : Mat) : Mat :=
  List.zipWith vadd a b

/-- Map with the element index, starting the count at `k`. -/
def idxMapFrom (f : Nat → α → β) (k : Nat) : List α → List β
  | [] => []
  | a :: t => f k a :: idxMapFrom f (k + 1) t

/-! ## Masking (`EGeoGNNModel.mask_attr`)

The source deep-copies the five input tensors and overwrites the copies:
for each masked atom (bond) row, every categorical column `i` is set to
`vocab_sizes[i] - 1` by the per-column loop; the continuous scalars at
masked bond/angle/dihedral indices are set to `0`.  `get_feature_dims`
lives in `datasets/featurizer.py`, which is not among the sources, so the
per-field vocabulary sizes are passed in as a parameter list, exactly as
`mask_attr` receives them from `get_feature_dims(self.atom_names)`. -/

/-- Net effect of the per-column masking loop of `mask_attr` on one
categorical feature matrix: each row listed in `idxs` has every column
`i` overwritten with `vocab.getD i 0 - 1`; other rows are untouched. -/
def maskCols (vocab : List Int) (idxs : List Nat) (x : List (List Int)) : List (List Int) :=
  idxMapFrom
    (fun r row => if r ∈ idxs then idxMapFrom (fun i _ => vocab.getD i 0 - 1) 0 row else row)
    0 x

/-- Categorical masking guarded by the `is not None` check of the source. -/
def maskCat (vocab : List Int) (m : Option (List Nat)) (x : List (List Int)) : List (List Int) :=
  match m with
  | none => x
  | some idxs => maskCols vocab idxs x

/-- Fancy-indexed zeroing `_t[masked_indices] = 0` of a scalar tensor. -/
def maskVec (idxs : List Nat) (v : List ℚ) : List ℚ :=
  idxMapFrom (fun j a => if j ∈ idxs then 0 else a) 0 v

/-- Scalar masking guarded by the `is not None` check of the source. -/
def maskVecOpt (m : Option (List Nat)) (v : List ℚ) : List ℚ :=
  match m with
  | none => v
  | some idxs => maskVec idxs v

/-- Values returned by `EGeoGNNModel.mask_attr`: masked copies of
`x, bond_attr, bond_lengths, bond_angles, dihedral_angles`. -/
structure Masked5 where
  mx : List (List Int)
  mbond : List (List Int)
  mlens : List ℚ
  mangs : List ℚ
  mdihs : List ℚ
deriving DecidableEq

/-- Value-level embedding of `EGeoGNNModel.mask_attr`: the five returned
tensors (the deep-copy aspect, i.e. that the caller's tensors are left
untouched, is captured separately by the store-level program
`maskAttrProg`). -/
def maskAttr (vocabA vocabB : List Int)
    (x battr : List (List Int)) (lens angs dihs : List ℚ)
    (mA mB mAng mD : Option (List Nat)) : Masked5 :=
  ⟨maskCat vocabA mA x, maskCat vocabB mB battr,
   maskVecOpt mB lens, maskVecOpt mAng angs, maskVecOpt mD dihs⟩

/-! ## Store-level model of `mask_attr` (mutation discipline)

Python tensors are mutable objects; `copy.deepcopy` allocates a fresh
object and the fancy-indexed assignments of `mask_attr` mutate only the
fresh copies.  A store is a list of tensor values addressed by allocation
index; `deepcopy` appends a copy of the addressed value, and each masking
statement rewrites one (freshly allocated) cell in place. -/

/-- Value held by one mutable tensor cell: either an integer feature
matrix or a scalar vector. -/
inductive Val where
  | imat (m : List (List Int)) : Val
  | qvec (v : List ℚ) : Val
deriving DecidableEq

/-- Mutable store of tensor objects; a reference is an index. -/
abbrev Store := List Val

/-- Read a cell. -/
def readS (st : Store) (r : Nat) : Val :=
  st.getD r (Val.imat [])

/-- Overwrite a cell in place. -/
def writeS (st : Store) (r : Nat) (v : Val) : Store :=
  st.set r v

/-- Embedding of `copy.deepcopy`: allocate a fresh cell holding the same
value and return its reference. -/
def deepcopy (st : Store) (r : Nat) : Nat × Store :=
  (st.length, st ++ [readS st r])

/-- Categorical masking applied to a cell value. -/
def catMaskV (vocab : List Int) (m : Option (List Nat)) : Val → Val
  | .imat a => .imat (maskCat vocab m a)
  | v => v

/-- Scalar masking applied to a cell value. -/
def vecMaskV (m : Option (List Nat)) : Val → Val
  | .qvec a => .qvec (maskVecOpt m a)
  | v => v

/-- Store-level embedding of `EGeoGNNModel.mask_attr`: deep-copy the five
argument tensors, then mutate only the copies (categorical mask loops on
`_x` and `_bond_attr`, zeroing of `_bond_lengths`, `_bond_angles`,
`_dihedral_angles`), returning the five fresh references and the final
store. -/
def maskAttrProg (vocabA vocabB : List Int) (rx rb rl ra rd : Nat)
    (mA mB mAng mD : Option (List Nat)) (st : Store) :
    (Nat × Nat × Nat × Nat × Nat) × Store :=
  let p1 := deepcopy st rx
  let p2 := deepcopy p1.2 rb
  let p3 := deepcopy p2.2 rl
  let p4 := deepcopy p3.2 ra
  let p5 := deepcopy p4.2 rd
  let s1 := writeS p5.2 p1.1 (catMaskV vocabA mA (readS p5.2 p1.1))
  let s2 := writeS s1 p2.1 (catMaskV vocabB mB (readS s1 p2.1))
  let s3 := writeS s2 p3.1 (vecMaskV mB (readS s2 p3.1))
  let s4 := writeS s3 p4.1 (vecMaskV mAng (readS s3 p4.1))
  let s5 := writeS s4 p5.1 (vecMaskV mD (readS s4 p5.1))
  ((p1.1, p2.1, p3.1, p4.1, p5.1), s5)

/-! ## Backward index resolution (`EGEM._get_Dar_loss`)

`_get_Dar_loss` resolves a masked dihedral-graph edge index down to four
atom indices by three levels of `index_select(1, ...)` lookups.  An edge
table is embedded as the list of its columns, each column a `(row0, row1)`
pair; `index_select(1, idx)`, followed by unpacking the two rows, becomes
selecting the listed columns (out-of-range indices raise in torch, hence
`Option`).  The subsequent concatenation, `Dar_mlp` and `SmoothL1Loss`
consume only these resolved indices and live in modules outside the
sources, so the embedding covers exactly the resolution. -/

/-- Select the listed columns of a 2-row edge-index table
(`index_select(1, idx)`), failing on an out-of-range index. -/
def selCols (edges : List (Nat × Nat)) (idx : List Nat) : Option (List (Nat × Nat)) :=
  idx.mapM (fun i => edges.get? i)

/-- Index resolution of `EGEM._get_Dar_loss`: masked dihedral-graph edge
indices resolve to angle pairs, those to bond indices (first endpoint of
the first angle, second endpoint of the second), and those to the four
atom index vectors `(i, j, k, l)`. -/
def darResolve (abE baE adE : List (Nat × Nat)) (mdi : List Nat) :
    Option (List Nat × List Nat × List Nat × List Nat) := do
  let dcols ← selCols adE mdi
  let angleI := dcols.map Prod.fst
  let angleJ := dcols.map Prod.snd
  let icols ← selCols baE angleI
  let bondI := icols.map Prod.fst
  let jcols ← selCols baE angleJ
  let bondK := jcols.map Prod.snd
  let bicols ← selCols abE bondI
  let bkcols ← selCols abE bondK
  pure (bicols.map Prod.fst, bicols.map Prod.snd, bkcols.map Prod.fst, bkcols.map Prod.snd)

/-! ## Spec-modelled embedding, RBF and message-passing modules

`AtomBondEmbedding`, `BondFloatRBF`, `BondAngleFloatRBF`,
`DihedralAngleFloatRBF` and `EGeoGNNBlock` are defined in
`models/gin/encoder.py`, which is not among the sources. -/

/-- Modelled from the spec: `AtomBondEmbedding` sums, over the categorical
fields, the lookup-table row selected by each field value.  The learned
tables are data: `tables.getD i` is field `i`'s vocabulary-by-latent
table.  Out-of-vocabulary values are undefined behaviour per the spec;
negative or overflowing values select an empty row here. -/
def embApply (tables : List (List (List ℚ))) (attr : List (List Int)) : Mat :=
  attr.map (fun row =>
    vsumL ((tables.zip row).map (fun p => if 0 ≤ p.2 then p.1.getD p.2.toNat [] else [])))

/-- Modelled from the spec: the message and node-update networks of one
`EGeoGNNBlock` (concatenation MLP, dropout, norm, residual, activation and
the `last_act` flag are all absorbed into the two abstract functions). -/
structure BlockParams where
  msg : List ℚ → List ℚ → List ℚ
  upd : List ℚ → List ℚ

/-- Messages flowing into destination node `j`: one per directed edge
`(src, dst)` with `dst = j`, combining the source node hidden state with
the edge's own hidden state. -/
def inMsgs (p : BlockParams) (nodeH edgeH : Mat) (edges : List (Nat × Nat)) (j : Nat) :
    List (List ℚ) :=
  (edges.enum.filter (fun e => e.2.2 == j)).map
    (fun e => p.msg (nodeH.getD e.2.1 []) (edgeH.getD e.1 []))

/-- Modelled from the spec: `EGeoGNNBlock` forward — per destination node,
sum-aggregate the incoming messages and apply the update network,
producing one output row per input node.  The batch-assignment vector is
part of the block's contract (spec 4.2) but the spec commits to no use of
it beyond optional batch norm, so it is an unused parameter here. -/
def blockApply (p : BlockParams) (nodeH edgeH : Mat) (edges : List (Nat × Nat))
    (_batches : List Nat) : Mat :=
  (List.range nodeH.length).map (fun j => p.upd (vsumL (inMsgs p nodeH edgeH edges j)))

/-- Embedding of `torch.repeat_interleave(graph_idx, counts, dim=0)`. -/
def repeatInterleave (gidx : List Nat) (counts : List Nat) : List Nat :=
  ((gidx.zip counts).map (fun p => List.replicate p.2 p.1)).flatten

/-! ## Mean pooling (`global_mean_pool`)

Modelled from the spec / `torch_geometric` semantics: scatter the rows by
batch index, sum per bucket, and divide each bucket by its row count
(an empty bucket yields an empty row; the claims only constrain nonempty
buckets). -/

/-- Scatter-add rows into an accumulator indexed by batch id. -/
def scatterSumRows (pairs : List (Nat × List ℚ)) (acc : List (List ℚ)) : List (List ℚ) :=
  pairs.foldl (fun a p => a.set p.1 (vadd (a.getD p.1 []) p.2)) acc

/-- Scatter-count batch ids into an accumulator. -/
def scatterCounts (batch : List Nat) (acc : List Nat) : List Nat :=
  batch.foldl (fun a g => a.set g (a.getD g 0 + 1)) acc

/-- Embedding of `global_mean_pool(x, batch, size=size)`. -/
def globalMeanPool (x : Mat) (batch : List Nat) (size : Nat) : Mat :=
  (List.range size).map (fun g =>
    if (scatterCounts batch (List.replicate size 0)).getD g 0 = 0 then []
    else
      vscale (1 / ((scatterCounts batch (List.replicate size 0)).getD g 0 : ℚ))
        ((scatterSumRows (batch.zip x) (List.replicate size [])).getD g []))

/-- Rows of `x` whose batch entry is `g` (specification-side grouping). -/
def groupRows (x : Mat) (batch : List Nat) (g : Nat) : Mat :=
  ((batch.zip x).filter (fun p => p.1 == g)).map Prod.snd

/-- Arithmetic mean of the rows of `x` whose batch entry is `g`
(specification-side description of one pooled row). -/
def groupMean (x : Mat) (batch : List Nat) (g : Nat) : List ℚ :=
  vscale (1 / ((groupRows x batch g).length : ℚ)) (vsumL (groupRows x batch g))

/-! ## Hierarchical encoder (`EGeoGNNModel.forward`) -/

/-- Construction-time state of `EGeoGNNModel`: the flag and layer count,
the vocabulary sizes delivered by `get_feature_dims`, and the learned
parameters of the init-embeddings, the per-layer re-embedding modules
(`bond_embedding_list`, `bond_float_rbf_list`, `bond_angle_float_rbf_list`,
`dihedral_angle_float_rbf_list`) and the three per-layer block lists. -/
structure EncCfg where
  withoutDihedral : Bool
  nLayers : Nat
  atomVocab : List Int
  bondVocab : List Int
  initAtomEmb : List (List (List ℚ))
  initBondEmb : List (List (List ℚ))
  initBondRBF : ℚ → List ℚ
  initAngleRBF : ℚ → List ℚ
  bondEmbList : Nat → List (List (List ℚ))
  bondRBFList : Nat → ℚ → List ℚ
  angleRBFList : Nat → ℚ → List ℚ
  dihRBFList : Nat → ℚ → List ℚ
  abBlock : Nat → BlockParams
  baBlock : Nat → BlockParams
  adBlock : Nat → BlockParams

/-- One batch of inputs to `EGeoGNNModel.forward`. -/
structure EncIn where
  abEdges : List (Nat × Nat)
  baEdges : List (Nat × Nat)
  adEdges : List (Nat × Nat)
  x : List (List Int)
  bondAttr : List (List Int)
  bondLengths : List ℚ
  bondAngles : List ℚ
  dihedralAngles : List ℚ
  atomBatch : List Nat
  numBonds : List Nat
  numAngles : List Nat
  numGraphs : Nat
  mAtom : Option (List Nat)
  mBond : Option (List Nat)
  mAngle : Option (List Nat)
  mDih : Option (List Nat)

/-- Runtime failure of the embedded forward pass.  The only raise-free
failure mode of `EGeoGNNModel.forward` at this abstraction level is the
`NameError` on `cur_dihedral_hidden` when the with-dihedral layer loop
never runs (`n_layers = 0`); no batch-consistency exception exists in the
source. -/
inductive EncError where
  | nameErrorCurDihedral : EncError
deriving DecidableEq

/-- Ghost record of one message-passing block invocation: hierarchy level
(0 = atom-bond, 1 = bond-angle, 2 = angle-dihedral), layer id, and the
node/edge hidden states passed in. -/
structure BlockCall where
  level : Nat
  layer : Nat
  nodeIn : Mat
  edgeIn : Mat
deriving DecidableEq

/-- Results of `EGeoGNNModel.forward`, plus the ghost trace of block
invocations. -/
structure ForwardOut where
  nodeRepr : Mat
  edgeRepr : Mat
  angleRepr : Option Mat
  dihedralRepr : Option Mat
  graphRepr : Mat
  trace : List BlockCall
deriving DecidableEq

/-- Masked inputs as produced by the `mask_attr` call at the top of
`forward`. -/
def maskedIn (cfg : EncCfg) (inp : EncIn) : Masked5 :=
  maskAttr cfg.atomVocab cfg.bondVocab inp.x inp.bondAttr
    inp.bondLengths inp.bondAngles inp.dihedralAngles
    inp.mAtom inp.mBond inp.mAngle inp.mDih

/-- Initial node hidden states: `init_atom_embedding(x)`. -/
def node0 (cfg : EncCfg) (inp : EncIn) : Mat :=
  embApply cfg.initAtomEmb (maskedIn cfg inp).mx

/-- Initial bond hidden states:
`init_bond_embedding(bond_attr) + init_bond_float_rbf(bond_lengths)`. -/
def edge0 (cfg : EncCfg) (inp : EncIn) : Mat :=
  matAdd (embApply cfg.initBondEmb (maskedIn cfg inp).mbond)
    ((maskedIn cfg inp).mlens.map cfg.initBondRBF)

/-- Initial bond-angle hidden states:
`init_bond_angle_float_rbf(bond_angles)`. -/
def angle0 (cfg : EncCfg) (inp : EncIn) : Mat :=
  (maskedIn cfg inp).mangs.map cfg.initAngleRBF

/-- Layer-`l` re-embedding of the (masked) raw bond features:
`bond_embedding_list[l](bond_attr) + bond_float_rbf_list[l](bond_lengths)`. -/
def curEdgeH (cfg : EncCfg) (inp : EncIn) (l : Nat) : Mat :=
  matAdd (embApply (cfg.bondEmbList l) (maskedIn cfg inp).mbond)
    ((maskedIn cfg inp).mlens.map (cfg.bondRBFList l))

/-- Layer-`l` re-embedding of the (masked) raw bond angles:
`bond_angle_float_rbf_list[l](bond_angles)`. -/
def curAngleH (cfg : EncCfg) (inp : EncIn) (l : Nat) : Mat :=
  (maskedIn cfg inp).mangs.map (cfg.angleRBFList l)

/-- Layer-`l` re-embedding of the (masked) raw dihedral angles:
`dihedral_angle_float_rbf_list[l](dihedral_angles)`. -/
def curDihH (cfg : EncCfg) (inp : EncIn) (l : Nat) : Mat :=
  (maskedIn cfg inp).mdihs.map (cfg.dihRBFList l)

/-- Derived bond batch assignment:
`torch.repeat_interleave(arange(num_graphs), num_bonds)`. -/
def bondBatch (inp : EncIn) : List Nat :=
  repeatInterleave (List.range inp.numGraphs) inp.numBonds

/-- Derived angle batch assignment:
`torch.repeat_interleave(arange(num_graphs), num_angles)`. -/
def angleBatch (inp : EncIn) : List Nat :=
  repeatInterleave (List.range inp.numGraphs) inp.numAngles

/-- Loop state of the with-dihedral layer loop: the three hidden-state
lists, the loop-carried `cur_dihedral_hidden` (None models the unbound
name before the first iteration), and the ghost trace. -/
structure LoopState where
  nodeList : List Mat
  edgeList : List Mat
  angleList : List Mat
  curDih : Option Mat
  trace : List BlockCall

/-- One iteration of the with-dihedral layer loop (`model.py` lines
181-209): atom-bond pass from the layer-`l` list entries, bond feature
refresh, bond-angle pass taking `angle_hidden_list[l]` as edge states,
angle/dihedral feature refresh, angle-dihedral pass, then append. -/
def stepWD (cfg : EncCfg) (inp : EncIn) (st : LoopState) (l : Nat) : LoopState :=
  let nprev := st.nodeList.getD l []
  let eprev := st.edgeList.getD l []
  let nh := blockApply (cfg.abBlock l) nprev eprev inp.abEdges inp.atomBatch
  let ce := curEdgeH cfg inp l
  let aprev := st.angleList.getD l []
  let eh := blockApply (cfg.baBlock l) ce aprev inp.baEdges (bondBatch inp)
  let ca := curAngleH cfg inp l
  let cd := curDihH cfg inp l
  let ah := blockApply (cfg.adBlock l) ca cd inp.adEdges (angleBatch inp)
  ⟨st.nodeList ++ [nh], st.edgeList ++ [eh], st.angleList ++ [ah], some cd,
   st.trace ++ [⟨0, l, nprev, eprev⟩, ⟨1, l, ce, aprev⟩, ⟨2, l, ca, cd⟩]⟩

/-- Loop state before the first with-dihedral iteration. -/
def initWD (cfg : EncCfg) (inp : EncIn) : LoopState :=
  ⟨[node0 cfg inp], [edge0 cfg inp], [angle0 cfg inp], none, []⟩

/-- The with-dihedral layer loop, iterated over `range n`. -/
def runWD (cfg : EncCfg) (inp : EncIn) (n : Nat) : LoopState :=
  (List.range n).foldl (stepWD cfg inp) (initWD cfg inp)

/-- Loop state of the without-dihedral layer loop. -/
structure LoopStateWO where
  nodeList : List Mat
  edgeList : List Mat
  trace : List BlockCall

/-- One iteration of the without-dihedral layer loop (`model.py` lines
144-163): atom-bond pass, bond feature refresh, bond-angle feature
refresh, bond-angle pass taking the fresh `cur_angle_hidden` as edge
states, then append. -/
def stepWO (cfg : EncCfg) (inp : EncIn) (st : LoopStateWO) (l : Nat) : LoopStateWO :=
  let nprev := st.nodeList.getD l []
  let eprev := st.edgeList.getD l []
  let nh := blockApply (cfg.abBlock l) nprev eprev inp.abEdges inp.atomBatch
  let ce := curEdgeH cfg inp l
  let ca := curAngleH cfg inp l
  let eh := blockApply (cfg.baBlock l) ce ca inp.baEdges (bondBatch inp)
  ⟨st.nodeList ++ [nh], st.edgeList ++ [eh],
   st.trace ++ [⟨0, l, nprev, eprev⟩, ⟨1, l, ce, ca⟩]⟩

/-- Loop state before the first without-dihedral iteration. -/
def initWO (cfg : EncCfg) (inp : EncIn) : LoopStateWO :=
  ⟨[node0 cfg inp], [edge0 cfg inp], []⟩

/-- The without-dihedral layer loop, iterated over `range n`. -/
def runWO (cfg : EncCfg) (inp : EncIn) (n : Nat) : LoopStateWO :=
  (List.range n).foldl (stepWO cfg inp) (initWO cfg inp)

/-- Embedding of `EGeoGNNModel.forward`: mask the inputs, build the
initial hidden states, run the per-layer loop of the configured variant,
and return the final representations; mirrors `model.py` lines 119-217,
including the `NameError` on `cur_dihedral_hidden` when the with-dihedral
loop never iterates. -/
def forward (cfg : EncCfg) (inp : EncIn) : Except EncError ForwardOut :=
  if cfg.withoutDihedral then
    let st := runWO cfg inp cfg.nLayers
    let nr := st.nodeList.getLastD []
    Except.ok ⟨nr, st.edgeList.getLastD [], none, none,
      globalMeanPool nr inp.atomBatch inp.numGraphs, st.trace⟩
  else
    let st := runWD cfg inp cfg.nLayers
    match st.curDih with
    | none => Except.error EncError.nameErrorCurDihedral
    | some d =>
        let nr := st.nodeList.getLastD []
        Except.ok ⟨nr, st.edgeList.getLastD [],
          some (st.angleList.getLastD []), some d,
          globalMeanPool nr inp.atomBatch inp.numGraphs, st.trace⟩

/-! ## Closed forms for the layered hidden states -/

/-- Closed form of the with-dihedral bond-angle hidden states:
`angle_hidden_list[l]`. -/
def angleHW (cfg : EncCfg) (inp : EncIn) : Nat → Mat
  | 0 => angle0 cfg inp
  | l + 1 =>
      blockApply (cfg.adBlock l) (curAngleH cfg inp l) (curDihH cfg inp l)
        inp.adEdges (angleBatch inp)

/-- Closed form of the with-dihedral bond hidden states:
`edge_hidden_list[l]`. -/
def edgeHW (cfg : EncCfg) (inp : EncIn) : Nat → Mat
  | 0 => edge0 cfg inp
  | l + 1 =>
      blockApply (cfg.baBlock l) (curEdgeH cfg inp l) (angleHW cfg inp l)
        inp.baEdges (bondBatch inp)

/-- Closed form of the with-dihedral atom hidden states:
`node_hidden_list[l]`. -/
def nodeHW (cfg : EncCfg) (inp : EncIn) : Nat → Mat
  | 0 => node0 cfg inp
  | l + 1 =>
      blockApply (cfg.abBlock l) (nodeHW cfg inp l) (edgeHW cfg inp l)
        inp.abEdges inp.atomBatch

/-- Closed form of the without-dihedral bond hidden states. -/
def edgeHWO (cfg : EncCfg) (inp : EncIn) : Nat → Mat
  | 0 => edge0 cfg inp
  | l + 1 =>
      blockApply (cfg.baBlock l) (curEdgeH cfg inp l) (curAngleH cfg inp l)
        inp.baEdges (bondBatch inp)

/-- Closed form of the without-dihedral atom hidden states. -/
def nodeHWO (cfg : EncCfg) (inp : EncIn) : Nat → Mat
  | 0 => node0 cfg inp
  | l + 1 =>
      blockApply (cfg.abBlock l) (nodeHWO cfg inp l) (edgeHWO cfg inp l)
        inp.abEdges inp.atomBatch

/-- The list `[f 0, ..., f n]`. -/
def prefixList (f : Nat → α) : Nat → List α
  | 0 => [f 0]
  | n + 1 => prefixList f n ++ [f (n + 1)]

/-- Ghost trace of the three with-dihedral block calls at layer `l`. -/
def traceWDAt (cfg : EncCfg) (inp : EncIn) (l : Nat) : List BlockCall :=
  [⟨0, l, nodeHW cfg inp l, edgeHW cfg inp l⟩,
   ⟨1, l, curEdgeH cfg inp l, angleHW cfg inp l⟩,
   ⟨2, l, curAngleH cfg inp l, curDihH cfg inp l⟩]

/-- Ghost trace of the first `n` with-dihedral layers. -/
def traceWDUpTo (cfg : EncCfg) (inp : EncIn) : Nat → List BlockCall
  | 0 => []
  | n + 1 => traceWDUpTo cfg inp n ++ traceWDAt cfg inp n

/-- Ghost trace of the two without-dihedral block calls at layer `l`. -/
def traceWOAt (cfg : EncCfg) (inp : EncIn) (l : Nat) : List BlockCall :=
  [⟨0, l, nodeHWO cfg inp l, edgeHWO cfg inp l⟩,
   ⟨1, l, curEdgeH cfg inp l, curAngleH cfg inp l⟩]

/-- Ghost trace of the first `n` without-dihedral layers. -/
def traceWOUpTo (cfg : EncCfg) (inp : EncIn) : Nat → List BlockCall
  | 0 => []
  | n + 1 => traceWOUpTo cfg inp n ++ traceWOAt cfg inp n

/-- The recorded bond-angle (level 1) block calls of layer `l`. -/
def baCallsAt (tr : List BlockCall) (l : Nat) : List BlockCall :=
  tr.filter (fun c => c.level == 1 && c.layer == l)

/-! ## Pretraining loss accumulation (`EGEM.compute_loss`)

The eight per-task loss computations delegate to MLP heads built from
`models/conv.py`, which is not among the sources; their scalar results
are therefore abstracted as a record of given rationals, and the
embedding captures exactly the accumulation and reporting structure of
`compute_loss`: the ordered sequence of `if name in self.pretrain_tasks`
blocks, the `loss = 0` integer start, and the final
`loss_dict["loss"] = loss.detach().item()` which is undefined while
`loss` is still the integer `0`. -/

/-- Abstract per-task scalar loss values (the helpers `_get_Blr_loss`
through `_get_wiberg_loss` evaluated on the batch). -/
structure TaskVals where
  blr : ℚ
  bar : ℚ
  dar : ℚ
  cm5 : ℚ
  espc : ℚ
  hirshfeld : ℚ
  npa : ℚ
  wiberg : ℚ
deriving DecidableEq

/-- The accumulator `loss`: the Python integer `0` it starts as, or a
scalar tensor once a task loss has been added. -/
inductive LossAcc where
  | intZero : LossAcc
  | tens (q : ℚ) : LossAcc
deriving DecidableEq

/-- Adding a task loss to the accumulator (`loss += task_loss`). -/
def accAdd : LossAcc → ℚ → LossAcc
  | .intZero, q => .tens q
  | .tens a, q => .tens (a + q)

/-- Accumulating a list of task losses in order. -/
def accAddList (a : LossAcc) (qs : List ℚ) : LossAcc :=
  qs.foldl accAdd a

/-- The task blocks of `compute_loss`, in source order: pretrain-task
name, reported dictionary key, and the task's scalar loss value. -/
def lossTable : List (String × String × (TaskVals → ℚ)) :=
  [("Blr", "bond_length_loss", fun v => v.blr),
   ("Bar", "bond_angle_loss", fun v => v.bar),
   ("Dar", "dihedral_angle_loss", fun v => v.dar),
   ("CM5", "cm5_charge_loss", fun v => v.cm5),
   ("ESPC", "espc_charge_loss", fun v => v.espc),
   ("HIRSHFELD", "hirshfeld_charge_loss", fun v => v.hirshfeld),
   ("NPA", "npa_charge_loss", fun v => v.npa),
   ("WIBERG", "wiberg_order_loss", fun v => v.wiberg)]

/-- Run the guarded accumulation blocks of `compute_loss` over `table`
from state `(loss, loss_dict)`. -/
def computeLossAux (tasks : List String) (v : TaskVals)
    (table : List (String × String × (TaskVals → ℚ)))
    (st : LossAcc × List (String × ℚ)) : LossAcc × List (String × ℚ) :=
  table.foldl
    (fun s e => if e.1 ∈ tasks then (accAdd s.1 (e.2.2 v), s.2 ++ [(e.2.1, e.2.2 v)]) else s)
    st

/-- Embedding of `EGEM.compute_loss`: run the eight guarded blocks, then
append the total under key `"loss"`; `none` models the `AttributeError`
of `loss.detach()` when no block ran and `loss` is still the integer `0`. -/
def computeLoss (tasks : List String) (v : TaskVals) : Option (ℚ × List (String × ℚ)) :=
  match computeLossAux tasks v lossTable (LossAcc.intZero, []) with
  | (LossAcc.intZero, _) => none
  | (LossAcc.tens q, d) => some (q, d ++ [("loss", q)])

/-- The pretraining task names recognized at `EGEM.__init__` (head and
loss-function construction), in source order.  Note `"Adc"` builds a head
there but has no block in `compute_loss`. -/
def recognizedNames : List String :=
  ["Blr", "Bar", "Dar", "Adc", "CM5", "ESPC", "HIRSHFELD", "NPA", "WIBERG"]

/-- The `compute_loss` task blocks active for a given task list. -/
def handledActive (tasks : List String) : List (String × String × (TaskVals → ℚ)) :=
  lossTable.filter (fun e => decide (e.1 ∈ tasks))

/-- Names of the `compute_loss` task blocks active for a given task list
(a decidable shadow of `handledActive`). -/
def activeNames (tasks : List String) : List String :=
  (lossTable.map (fun e => e.1)).filter (fun s => decide (s ∈ tasks))

/-! ## Concrete instances for witnesses and counterexamples -/

/-- A concrete message-passing block: messages add the source node and
edge states, the update is the identity. -/
def blkAdd : BlockParams :=
  ⟨fun nv ev => vadd nv ev, fun v => v⟩

/-- A concrete without-dihedral encoder with one layer and latent size 1;
its initial bond-angle RBF embedding (constantly `[1]`) differs from its
layer-0 bond-angle RBF table (constantly `[2]`). -/
def cfgNoDih : EncCfg :=
  ⟨true, 1, [5], [4],
   [[[1], [2], [3], [4], [5]]], [[[1], [2], [3], [4]]],
   fun q => [q], fun _ => [1],
   fun _ => [[[1], [2], [3], [4]]], fun _ q => [q], fun _ _ => [2], fun _ q => [q],
   fun _ => blkAdd, fun _ => blkAdd, fun _ => blkAdd⟩

/-- The same concrete encoder in its with-dihedral variant. -/
def cfgD : EncCfg :=
  ⟨false, 1, [5], [4],
   [[[1], [2], [3], [4], [5]]], [[[1], [2], [3], [4]]],
   fun q => [q], fun _ => [1],
   fun _ => [[[1], [2], [3], [4]]], fun _ q => [q], fun _ _ => [2], fun _ q => [q],
   fun _ => blkAdd, fun _ => blkAdd, fun _ => blkAdd⟩

/-- The spec's end-to-end batch: one molecule with 4 atoms on a chain,
3 bonds, 2 bond angles, 1 dihedral, no masking. -/
def inpChain : EncIn :=
  ⟨[(0, 1), (1, 2), (2, 3)], [(0, 1), (1, 2)], [(0, 1)],
   [[0], [1], [2], [0]], [[0], [1], [0]],
   [1, 2, 3], [1, 2], [3],
   [0, 0, 0, 0], [3], [2], 1,
   none, none, none, none⟩

/-- The chain batch with a corrupted bond count: `sum(num_bonds) = 5`
although there are 3 bond rows. -/
def inpMism : EncIn :=
  ⟨[(0, 1), (1, 2), (2, 3)], [(0, 1), (1, 2)], [(0, 1)],
   [[0], [1], [2], [0]], [[0], [1], [0]],
   [1, 2, 3], [1, 2], [3],
   [0, 0, 0, 0], [5], [2], 1,
   none, none, none, none⟩

/-- A without-dihedral encoder with zero layers (the loop body never
runs), used to evaluate pooling directly on the initial embeddings. -/
def cfgPool : EncCfg :=
  ⟨true, 0, [2], [2],
   [[[1], [2]]], [[[1], [2]]],
   fun q => [q], fun _ => [1],
   fun _ => [[[1], [2]]], fun _ q => [q], fun _ _ => [2], fun _ q => [q],
   fun _ => blkAdd, fun _ => blkAdd, fun _ => blkAdd⟩

/-- A batch of two molecules with 3 and 5 atoms (the spec's pooling
scenario); no bonds or angles are needed at zero layers. -/
def inpPool : EncIn :=
  ⟨[], [], [],
   [[0], [1], [0], [1], [0], [1], [0], [1]], [],
   [], [], [],
   [0, 0, 0, 1, 1, 1, 1, 1], [0, 0], [0, 0], 2,
   none, none, none, none⟩

/-- Task losses with a bond-length loss of 1 and all others 0. -/
def vBlr : TaskVals :=
  ⟨1, 0, 0, 0, 0, 0, 0, 0⟩

/-- A concrete five-cell store for the masking frame property. -/
def stC4 : Store :=
  [Val.imat [[0]], Val.imat [[1]], Val.qvec [1], Val.qvec [2], Val.qvec [3]]

/-- The encoder output of `cfgPool` on `inpPool` (extracted from the
forward pass itself). -/
def outPool : ForwardOut :=
  (forward cfgPool inpPool).toOption.getD ⟨[], [], none, none, [], []⟩

/-! ## Generic list lemmas -/

theorem idxMapFrom_get? (f : Nat → α → β) :
    ∀ (l : List α) (k n : Nat), (idxMapFrom f k l).get? n = (l.get? n).map (f (k + n)) := by
  intro l
  induction l with
  | nil => intro k n; simp [idxMapFrom]
  | cons a t ih =>
      intro k n
      cases n with
      | zero => simp [idxMapFrom]
      | succ m =>
          simp only [idxMapFrom, List.get?]
          rw [ih (k + 1) m]
          have h : k + 1 + m = k + (m + 1) := by omega
          rw [h]

theorem idxMapFrom_length (f : Nat → α → β) :
    ∀ (l : List α) (k : Nat), (idxMapFrom f k l).length = l.length := by
  intro l
  induction l with
  | nil => intro k; rfl
  | cons a t ih => intro k; simp [idxMapFrom, ih]

theorem idxMapFrom_getD (f : Nat → α → α) (l : List α) (n : Nat) (d : α)
    (h : n < l.length) : (idxMapFrom f 0 l).getD n d = f n (l.getD n d) := by
  have hg := idxMapFrom_get? f l 0 n
  have hlt : (l.get? n).isSome := by
    rw [List.get?_eq_get h]; rfl
  rcases Option.isSome_iff_exists.mp hlt with ⟨a, ha⟩
  rw [List.get?_eq_getElem?] at hg ha
  simp [List.getD_eq_getElem?_getD, hg, ha]

theorem egGetD_append_lt (l m : List α) (i : Nat) (d : α) (h : i < l.length) :
    (l ++ m).getD i d = l.getD i d := by
  induction l generalizing i with
  | nil => simp at h
  | cons a t ih =>
      cases i with
      | zero => rfl
      | succ j => simpa using ih j (by simpa using h)

theorem egGet?_append_lt (l m : List α) (i : Nat) (h : i < l.length) :
    (l ++ m).get? i = l.get? i := by
  induction l generalizing i with
  | nil => simp at h
  | cons a t ih =>
      cases i with
      | zero => rfl
      | succ j => simpa using ih j (by simpa using h)

theorem egGetD_append_len (l : List α) (a d : α) :
    (l ++ [a]).getD l.length d = a := by
  induction l with
  | nil => rfl
  | cons b t ih => simpa using ih

theorem egGetLastD_concat (l : List α) (a d : α) :
    (l ++ [a]).getLastD d = a := by
  induction l with
  | nil => rfl
  | cons b t ih =>
      rcases t with _ | ⟨c, u⟩
      · rfl
      · simpa using ih

theorem egGetD_set_self (l : List α) (i : Nat) (v d : α) (h : i < l.length) :
    (l.set i v).getD i d = v := by
  induction l generalizing i with
  | nil => simp at h
  | cons a t ih =>
      cases i with
      | zero => rfl
      | succ j => simpa using ih j (by simpa using h)

theorem egGet?_set_ne (l : List α) (i j : Nat) (v : α) (h : j ≠ i) :
    (l.set i v).get? j = l.get? j := by
  induction l generalizing i j with
  | nil => simp
  | cons a t ih =>
      cases i with
      | zero =>
          cases j with
          | zero => exact absurd rfl h
          | succ m => rfl
      | succ n =>
          cases j with
          | zero => rfl
          | succ m => simpa using ih n m (by omega)

theorem egGetD_set_ne (l : List α) (i j : Nat) (v d : α) (h : j ≠ i) :
    (l.set i v).getD j d = l.getD j d := by
  rw [List.getD_eq_getElem?_getD, List.getD_eq_getElem?_getD,
    ← List.get?_eq_getElem?, ← List.get?_eq_getElem?, egGet?_set_ne l i j v h]

theorem egGetD_replicate (n i : Nat) (v d : α) (h : i < n) :
    (List.replicate n v).getD i d = v := by
  induction n generalizing i with
  | zero => simp at h
  | succ m ih =>
      cases i with
      | zero => rfl
      | succ j =>
          rw [List.replicate_succ]
          simpa using ih j (by omega)

theorem egGetD_range_map (f : Nat → α) (n i : Nat) (d : α) (h : i < n) :
    ((List.range n).map f).getD i d = f i := by
  have h1 : ((List.range n).map f).get? i = ((List.range n).get? i).map f :=
    List.get?_map f (List.range n) i
  have h2 : (List.range n).get? i = some i := List.get?_range h
  rw [h2] at h1
  rw [List.getD_eq_getElem?_getD, ← List.get?_eq_getElem?, h1]
  rfl

theorem egFoldl_range_succ (g : β → Nat → β) (a : β) (n : Nat) :
    (List.range (n + 1)).foldl g a = g ((List.range n).foldl g a) n := by
  rw [List.range_succ, List.foldl_append]
  rfl

theorem prefixList_length (f : Nat → α) (n : Nat) :
    (prefixList f n).length = n + 1 := by
  induction n with
  | zero => rfl
  | succ m ih => simp [prefixList, ih]

theorem prefixList_getD (f : Nat → α) (n l : Nat) (d : α) (h : l ≤ n) :
    (prefixList f n).getD l d = f l := by
  induction n with
  | zero =>
      have h0 : l = 0 := by omega
      subst h0; rfl
  | succ m ih =>
      by_cases hm : l ≤ m
      · rw [prefixList, egGetD_append_lt _ _ _ _ (by rw [prefixList_length]; omega), ih hm]
      · have hl : l = m + 1 := by omega
        subst hl
        rw [prefixList]
        have hlen : (prefixList f m).length = m + 1 := prefixList_length f m
        calc (prefixList f m ++ [f (m + 1)]).getD (m + 1) d
            = (prefixList f m ++ [f (m + 1)]).getD (prefixList f m).length d := by rw [hlen]
          _ = f (m + 1) := egGetD_append_len _ _ _

theorem prefixList_getLastD (f : Nat → α) (n : Nat) (d : α) :
    (prefixList f n).getLastD d = f n := by
  cases n with
  | zero => rfl
  | succ m => exact egGetLastD_concat _ _ _

theorem prefixList_getLast?_getD (f : Nat → α) (n : Nat) (d : α) :
    (prefixList f n).getLast?.getD d = f n := by
  have h := prefixList_getLastD f n d
  rwa [List.getLastD_eq_getLast?] at h

/-! ## Lemmas about masking -/

theorem maskVecOpt_length (m : Option (List Nat)) (v : List ℚ) :
    (maskVecOpt m v).length = v.length := by
  cases m with
  | none => rfl
  | some idxs => simp [maskVecOpt, maskVec, idxMapFrom_length]

theorem maskCat_length (vocab : List Int) (m : Option (List Nat)) (x : List (List Int)) :
    (maskCat vocab m x).length = x.length := by
  cases m with
  | none => rfl
  | some idxs => simp [maskCat, maskCols, idxMapFrom_length]

theorem maskCols_getD_mem (vocab : List Int) (idxs : List Nat) (x : List (List Int))
    (r i : Nat) (hr : r < x.length) (hmem : r ∈ idxs) (hi : i < (x.getD r []).length) :
    ((maskCols vocab idxs x).getD r []).getD i 0 = vocab.getD i 0 - 1 := by
  unfold maskCols
  rw [idxMapFrom_getD _ _ _ _ hr, if_pos hmem, idxMapFrom_getD _ _ _ _ hi]

theorem maskCols_getD_not_mem (vocab : List Int) (idxs : List Nat) (x : List (List Int))
    (r : Nat) (hr : r < x.length) (hmem : r ∉ idxs) :
    (maskCols vocab idxs x).getD r [] = x.getD r [] := by
  unfold maskCols
  rw [idxMapFrom_getD _ _ _ _ hr, if_neg hmem]

theorem maskVec_getD_mem (idxs : List Nat) (v : List ℚ) (j : Nat)
    (hj : j < v.length) (hmem : j ∈ idxs) : (maskVec idxs v).getD j 0 = 0 := by
  unfold maskVec
  rw [idxMapFrom_getD _ _ _ _ hj, if_pos hmem]

theorem maskVec_getD_not_mem (idxs : List Nat) (v : List ℚ) (j : Nat)
    (hj : j < v.length) (hmem : j ∉ idxs) : (maskVec idxs v).getD j 0 = v.getD j 0 := by
  unfold maskVec
  rw [idxMapFrom_getD _ _ _ _ hj, if_neg hmem]

/-- C3: for the 4-atom chain i-j-k-l with bonds `(i,j),(j,k),(k,l)`,
bond-angle edges `(0,1)` and `(1,2)` joining consecutive bonds, and one
angle-dihedral edge `(0,1)` joining the two angles, the backward index
resolution of `EGEM._get_Dar_loss` on the masked dihedral index `0`
yields the atom indices `(i, j, k, l)` in exactly that order. -/
theorem darResolve_chain (i j k l : Nat) :
    darResolve [(i, j), (j, k), (k, l)] [(0, 1), (1, 2)] [(0, 1)] [0] =
      some ([i], [j], [k], [l]) := rfl

/-- C5: `mask_attr` returns copies in which each masked atom (bond) row
has every categorical field `i` equal to `vocab_sizes[i] - 1`, each
masked bond/angle/dihedral scalar is `0`, every entry not at a masked
index keeps its original value, and a `None` index set leaves the
corresponding copy entirely unchanged. -/
theorem maskAttr_masked_values (vocabA vocabB : List Int)
    (x battr : List (List Int)) (lens angs dihs : List ℚ)
    (mA mB mAng mD : Option (List Nat)) (M : Masked5)
    (hM : M = maskAttr vocabA vocabB x battr lens angs dihs mA mB mAng mD) :
    ((mA = none → M.mx = x) ∧
      (∀ idxs, mA = some idxs →
        (∀ r, r < x.length → r ∈ idxs → ∀ i, i < (x.getD r []).length →
          i < vocabA.length → (M.mx.getD r []).getD i 0 = vocabA.getD i 0 - 1) ∧
        (∀ r, r < x.length → r ∉ idxs → M.mx.getD r [] = x.getD r []))) ∧
    ((mB = none → M.mbond = battr) ∧
      (∀ idxs, mB = some idxs →
        (∀ r, r < battr.length → r ∈ idxs → ∀ i, i < (battr.getD r []).length →
          i < vocabB.length → (M.mbond.getD r []).getD i 0 = vocabB.getD i 0 - 1) ∧
        (∀ r, r < battr.length → r ∉ idxs → M.mbond.getD r [] = battr.getD r []))) ∧
    ((mB = none → M.mlens = lens) ∧
      (∀ idxs, mB = some idxs → ∀ j, j < lens.length →
        (j ∈ idxs → M.mlens.getD j 0 = 0) ∧
        (j ∉ idxs → M.mlens.getD j 0 = lens.getD j 0))) ∧
    ((mAng = none → M.mangs = angs) ∧
      (∀ idxs, mAng = some idxs → ∀ j, j < angs.length →
        (j ∈ idxs → M.mangs.getD j 0 = 0) ∧
        (j ∉ idxs → M.mangs.getD j 0 = angs.getD j 0))) ∧
    ((mD = none → M.mdihs = dihs) ∧
      (∀ idxs, mD = some idxs → ∀ j, j < dihs.length →
        (j ∈ idxs → M.mdihs.getD j 0 = 0) ∧
        (j ∉ idxs → M.mdihs.getD j 0 = dihs.getD j 0))) := by
  subst hM
  refine ⟨⟨?_, ?_⟩, ⟨?_, ?_⟩, ⟨?_, ?_⟩, ⟨?_, ?_⟩, ⟨?_, ?_⟩⟩
  · intro h; subst h; rfl
  · intro idxs h
    subst h
    exact ⟨fun r hr hmem i hi _ => maskCols_getD_mem vocabA idxs x r i hr hmem hi,
      fun r hr hmem => maskCols_getD_not_mem vocabA idxs x r hr hmem⟩
  · intro h; subst h; rfl
  · intro idxs h
    subst h
    exact ⟨fun r hr hmem i hi _ => maskCols_getD_mem vocabB idxs battr r i hr hmem hi,
      fun r hr hmem => maskCols_getD_not_mem vocabB idxs battr r hr hmem⟩
  · intro h; subst h; rfl
  · intro idxs h
    subst h
    exact fun j hj => ⟨fun hmem => maskVec_getD_mem idxs lens j hj hmem,
      fun hmem => maskVec_getD_not_mem idxs lens j hj hmem⟩
  · intro h; subst h; rfl
  · intro idxs h
    subst h
    exact fun j hj => ⟨fun hmem => maskVec_getD_mem idxs angs j hj hmem,
      fun hmem => maskVec_getD_not_mem idxs angs j hj hmem⟩
  · intro h; subst h; rfl
  · intro idxs h
    subst h
    exact fun j hj => ⟨fun hmem => maskVec_getD_mem idxs dihs j hj hmem,
      fun hmem => maskVec_getD_not_mem idxs dihs j hj hmem⟩

/-- C5 witness: on a concrete input with two atoms (the second masked),
one masked bond and one masked dihedral, the masked copies carry the
mask token `5 - 1 = 4`, the zeroed bond length, and the untouched
unmasked entries. -/
theorem maskAttr_masked_values_witness :
    (1 : Nat) < 2 ∧ 1 ∈ [1] ∧
      (((maskAttr [5] [4] [[0], [1]] [[2]] [3, 4] [5] [6]
        (some [1]) (some [0]) none (some [0])).mx.getD 1 []).getD 0 0 = 4 ∧
      (maskAttr [5] [4] [[0], [1]] [[2]] [3, 4] [5] [6]
        (some [1]) (some [0]) none (some [0])).mlens.getD 0 0 = 0 ∧
      (maskAttr [5] [4] [[0], [1]] [[2]] [3, 4] [5] [6]
        (some [1]) (some [0]) none (some [0])).mangs = [5]) := by
  have h := maskAttr_masked_values [5] [4] [[0], [1]] [[2]] [3, 4] [5] [6]
    (some [1]) (some [0]) none (some [0]) _ rfl
  refine ⟨by decide, by decide, ?_, ?_, ?_⟩
  · exact ((h.1.2 [1] rfl).1 1 (by decide) (by decide) 0 (by decide) (by decide)).trans (by decide)
  · exact ((h.2.2.1.2 [0] rfl) 0 (by decide)).1 (by decide)
  · exact h.2.2.2.1.1 rfl

/-! ## The masking frame property (claim C4) -/

/-- C4: `mask_attr` never mutates its caller's tensors: every store cell
that existed before the call — in particular the five argument tensors —
holds exactly its pre-call value in the post-call store.  The five
returned references are the fresh deep copies. -/
theorem maskAttrProg_frame (vocabA vocabB : List Int) (rx rb rl ra rd : Nat)
    (mA mB mAng mD : Option (List Nat)) (st : Store) (r : Nat) (hr : r < st.length) :
    ((maskAttrProg vocabA vocabB rx rb rl ra rd mA mB mAng mD st).2).get? r = st.get? r := by
  simp only [maskAttrProg, deepcopy, writeS, List.length_append, List.length_cons,
    List.length_nil]
  rw [egGet?_set_ne _ _ _ _ (by omega), egGet?_set_ne _ _ _ _ (by omega),
    egGet?_set_ne _ _ _ _ (by omega), egGet?_set_ne _ _ _ _ (by omega),
    egGet?_set_ne _ _ _ _ (by omega)]
  rw [egGet?_append_lt _ _ _ (by simp; omega), egGet?_append_lt _ _ _ (by simp; omega),
    egGet?_append_lt _ _ _ (by simp; omega), egGet?_append_lt _ _ _ (by simp; omega),
    egGet?_append_lt _ _ _ hr]

/-- C4 witness: on a concrete five-cell store holding the five argument
tensors, cell 0 (the `x` argument, with atom index 0 masked) is unchanged
by the call. -/
theorem maskAttrProg_frame_witness :
    (0 : Nat) < stC4.length ∧
      ((maskAttrProg [5] [4] 0 1 2 3 4 (some [0]) none none none stC4).2).get? 0 =
        stC4.get? 0 :=
  ⟨by decide, maskAttrProg_frame [5] [4] 0 1 2 3 4 (some [0]) none none none stC4 0 (by decide)⟩

/-! ## Lemmas about the loss accumulation -/

theorem computeLossAux_eq (tasks : List String) (v : TaskVals) :
    ∀ (table : List (String × String × (TaskVals → ℚ))) (acc : LossAcc)
      (dict : List (String × ℚ)),
      computeLossAux tasks v table (acc, dict) =
        (accAddList acc ((table.filter (fun e => decide (e.1 ∈ tasks))).map (fun e => e.2.2 v)),
         dict ++ (table.filter (fun e => decide (e.1 ∈ tasks))).map (fun e => (e.2.1, e.2.2 v))) := by
  intro table
  induction table with
  | nil => intro acc dict; simp [computeLossAux, accAddList]
  | cons e t ih =>
      intro acc dict
      by_cases he : e.1 ∈ tasks
      · have h1 : computeLossAux tasks v (e :: t) (acc, dict) =
            computeLossAux tasks v t (accAdd acc (e.2.2 v), dict ++ [(e.2.1, e.2.2 v)]) := by
          simp [computeLossAux, he]
        rw [h1, ih]
        simp [List.filter_cons, he, accAddList]
      · have h1 : computeLossAux tasks v (e :: t) (acc, dict) =
            computeLossAux tasks v t (acc, dict) := by
          simp [computeLossAux, he]
        rw [h1, ih]
        simp [List.filter_cons, he]

theorem accAddList_tens (a : ℚ) :
    ∀ qs : List ℚ, accAddList (LossAcc.tens a) qs = LossAcc.tens (a + qs.sum) := by
  intro qs
  induction qs generalizing a with
  | nil => simp [accAddList]
  | cons q rest ih =>
      have h1 : accAddList (LossAcc.tens a) (q :: rest) =
          accAddList (LossAcc.tens (a + q)) rest := rfl
      rw [h1, ih]
      simp [add_assoc]

theorem accAddList_intZero_cons (q : ℚ) (rest : List ℚ) :
    accAddList LossAcc.intZero (q :: rest) = LossAcc.tens (q + rest.sum) := by
  have h1 : accAddList LossAcc.intZero (q :: rest) =
      accAddList (LossAcc.tens q) rest := rfl
  rw [h1, accAddList_tens]

theorem activeNames_nil_iff (tasks : List String) :
    ∀ table : List (String × String × (TaskVals → ℚ)),
      ((table.map (fun e => e.1)).filter (fun s => decide (s ∈ tasks)) = [] ↔
        table.filter (fun e => decide (e.1 ∈ tasks)) = []) := by
  intro table
  induction table with
  | nil => simp
  | cons e t ih =>
      by_cases he : e.1 ∈ tasks
      · simp [List.filter_cons, he]
      · simpa [List.filter_cons, he] using ih

/-- C6 (amended): `compute_loss` returns the unweighted sum of the loss
values of exactly those active tasks that have a block in `compute_loss`
(`Blr, Bar, Dar, CM5, ESPC, HIRSHFELD, NPA, WIBERG` — an active `Adc`
task is never evaluated there), paired with the breakdown holding one
entry per such task, in block order, followed by the `"loss"` total. -/
theorem computeLoss_active_sum (tasks : List String) (v : TaskVals)
    (h : activeNames tasks ≠ []) :
    computeLoss tasks v =
      some (((handledActive tasks).map (fun e => e.2.2 v)).sum,
        (handledActive tasks).map (fun e => (e.2.1, e.2.2 v)) ++
          [("loss", ((handledActive tasks).map (fun e => e.2.2 v)).sum)]) := by
  have hne : lossTable.filter (fun e => decide (e.1 ∈ tasks)) ≠ [] := by
    intro hh
    exact h ((activeNames_nil_iff tasks lossTable).mpr hh)
  unfold computeLoss handledActive
  rw [computeLossAux_eq]
  rcases hq : lossTable.filter (fun e => decide (e.1 ∈ tasks)) with _ | ⟨e, rest⟩
  · exact absurd hq hne
  · rw [hq]
    simp [accAddList_intZero_cons, List.sum_cons]

/-- C6 witness: with only the `Blr` task active, `compute_loss` returns
normally and the breakdown's key list is exactly `bond_length_loss` then
`loss`. -/
theorem computeLoss_active_sum_witness :
    activeNames ["Blr"] ≠ [] ∧
      (computeLoss ["Blr"] vBlr).map (fun p => p.2.map Prod.fst) =
        some ["bond_length_loss", "loss"] := by
  refine ⟨by decide, ?_⟩
  rw [computeLoss_active_sum ["Blr"] vBlr (by decide)]
  decide

/-- C6 counterexample: with `pretrain_tasks = ["Adc", "Blr"]` both names
are recognized at construction (each owns a head and a loss function),
yet the breakdown contains a single per-task entry — the claimed one
entry per active task fails for `Adc`, whose loss is never computed. -/
theorem computeLoss_adc_dropped :
    (computeLoss ["Adc", "Blr"] vBlr).map
        (fun p => (p.2.filter (fun e => decide (e.1 ≠ "loss"))).length) = some 1 ∧
      (["Adc", "Blr"].filter (fun t => decide (t ∈ recognizedNames))).length = 2 ∧
      (1 : Nat) ≠ 2 := by
  refine ⟨?_, ?_, ?_⟩ <;> decide

/-- C10: when no recognized pretraining task name is active,
`compute_loss` cannot return normally (`loss` stays the Python integer
`0` and `loss.detach()` is undefined); a normal return requires at least
one active recognized task. -/
theorem computeLoss_requires_recognized (tasks : List String) (v : TaskVals) :
    ((∀ t ∈ tasks, t ∉ recognizedNames) → computeLoss tasks v = none) ∧
    (∀ r, computeLoss tasks v = some r → ∃ t, t ∈ tasks ∧ t ∈ recognizedNames) := by
  have hsub : ∀ e ∈ lossTable, e.1 ∈ recognizedNames := by
    intro e he
    fin_cases he <;> decide
  have hpart1 : (∀ t ∈ tasks, t ∉ recognizedNames) → computeLoss tasks v = none := by
    intro hnone
    have hfil : lossTable.filter (fun e => decide (e.1 ∈ tasks)) = [] := by
      rw [List.filter_eq_nil_iff]
      intro e he
      simp only [decide_eq_true_eq]
      exact fun hmem => hnone e.1 hmem (hsub e he)
    unfold computeLoss
    rw [computeLossAux_eq, hfil]
    simp [accAddList]
  refine ⟨hpart1, ?_⟩
  intro r hr
  by_contra hcon
  push_neg at hcon
  rw [hpart1 hcon] at hr
  exact Option.noConfusion hr

/-- C10 witness: with the single unrecognized task name `"foo"`,
`compute_loss` does not return normally. -/
theorem computeLoss_requires_recognized_witness :
    (∀ t ∈ (["foo"] : List String), t ∉ recognizedNames) ∧
      computeLoss ["foo"] vBlr = none :=
  ⟨by decide, (computeLoss_requires_recognized ["foo"] vBlr).1 (by decide)⟩

/-! ## Characterization of the layer loops -/

theorem runWD_eq (cfg : EncCfg) (inp : EncIn) :
    ∀ n, runWD cfg inp n =
      ⟨prefixList (nodeHW cfg inp) n, prefixList (edgeHW cfg inp) n,
       prefixList (angleHW cfg inp) n,
       (match n with | 0 => none | Nat.succ m => some (curDihH cfg inp m)),
       traceWDUpTo cfg inp n⟩ := by
  intro n
  induction n with
  | zero =>
      simp [runWD, initWD, prefixList, traceWDUpTo, nodeHW, edgeHW, angleHW]
  | succ m ih =>
      have hstep : runWD cfg inp (m + 1) = stepWD cfg inp (runWD cfg inp m) m := by
        unfold runWD
        exact egFoldl_range_succ _ _ m
      rw [hstep, ih]
      unfold stepWD
      simp only [prefixList_getD _ m m _ (le_refl m)]
      simp [prefixList, nodeHW, edgeHW, angleHW, traceWDUpTo, traceWDAt]

theorem runWO_eq (cfg : EncCfg) (inp : EncIn) :
    ∀ n, runWO cfg inp n =
      ⟨prefixList (nodeHWO cfg inp) n, prefixList (edgeHWO cfg inp) n,
       traceWOUpTo cfg inp n⟩ := by
  intro n
  induction n with
  | zero =>
      simp [runWO, initWO, prefixList, traceWOUpTo, nodeHWO, edgeHWO]
  | succ m ih =>
      have hstep : runWO cfg inp (m + 1) = stepWO cfg inp (runWO cfg inp m) m := by
        unfold runWO
        exact egFoldl_range_succ _ _ m
      rw [hstep, ih]
      unfold stepWO
      simp only [prefixList_getD _ m m _ (le_refl m)]
      simp [prefixList, nodeHWO, edgeHWO, traceWOUpTo, traceWOAt]

theorem baCallsAt_append (a b : List BlockCall) (l : Nat) :
    baCallsAt (a ++ b) l = baCallsAt a l ++ baCallsAt b l := by
  unfold baCallsAt
  exact List.filter_append _ _

theorem baCallsAt_traceWDAt (cfg : EncCfg) (inp : EncIn) (m l : Nat) :
    baCallsAt (traceWDAt cfg inp m) l =
      if l = m then [⟨1, m, curEdgeH cfg inp m, angleHW cfg inp m⟩] else [] := by
  unfold baCallsAt traceWDAt
  by_cases h : l = m
  · subst h
    simp [List.filter]
  · have hm : (m == l) = false := by
      simp [beq_iff_eq]
      omega
    simp [List.filter, hm, h]

theorem baCallsAt_traceWDUpTo (cfg : EncCfg) (inp : EncIn) :
    ∀ n l, baCallsAt (traceWDUpTo cfg inp n) l =
      if l < n then [⟨1, l, curEdgeH cfg inp l, angleHW cfg inp l⟩] else [] := by
  intro n
  induction n with
  | zero => intro l; simp [traceWDUpTo, baCallsAt]
  | succ m ih =>
      intro l
      rw [traceWDUpTo, baCallsAt_append, ih l, baCallsAt_traceWDAt]
      by_cases h1 : l < m
      · rw [if_pos h1, if_neg (by omega), if_pos (by omega)]
        simp
      · by_cases h2 : l = m
        · subst h2
          rw [if_neg (by omega), if_pos rfl, if_pos (by omega)]
          simp
        · rw [if_neg h1, if_neg h2, if_neg (by omega)]
          simp

theorem baCallsAt_traceWOAt (cfg : EncCfg) (inp : EncIn) (m l : Nat) :
    baCallsAt (traceWOAt cfg inp m) l =
      if l = m then [⟨1, m, curEdgeH cfg inp m, curAngleH cfg inp m⟩] else [] := by
  unfold baCallsAt traceWOAt
  by_cases h : l = m
  · subst h
    simp [List.filter]
  · have hm : (m == l) = false := by
      simp [beq_iff_eq]
      omega
    simp [List.filter, hm, h]

theorem baCallsAt_traceWOUpTo (cfg : EncCfg) (inp : EncIn) :
    ∀ n l, baCallsAt (traceWOUpTo cfg inp n) l =
      if l < n then [⟨1, l, curEdgeH cfg inp l, curAngleH cfg inp l⟩] else [] := by
  intro n
  induction n with
  | zero => intro l; simp [traceWOUpTo, baCallsAt]
  | succ m ih =>
      intro l
      rw [traceWOUpTo, baCallsAt_append, ih l, baCallsAt_traceWOAt]
      by_cases h1 : l < m
      · rw [if_pos h1, if_neg (by omega), if_pos (by omega)]
        simp
      · by_cases h2 : l = m
        · subst h2
          rw [if_neg (by omega), if_pos rfl, if_pos (by omega)]
          simp
        · rw [if_neg h1, if_neg h2, if_neg (by omega)]
          simp

/-! ## Shape lemmas and the forward branch equations -/

theorem blockApply_length (p : BlockParams) (nodeH edgeH : Mat)
    (edges : List (Nat × Nat)) (batches : List Nat) :
    (blockApply p nodeH edgeH edges batches).length = nodeH.length := by
  simp [blockApply]

theorem curAngleH_length (cfg : EncCfg) (inp : EncIn) (l : Nat) :
    (curAngleH cfg inp l).length = inp.bondAngles.length := by
  simp [curAngleH, maskedIn, maskAttr, maskVecOpt_length]

theorem curDihH_length (cfg : EncCfg) (inp : EncIn) (l : Nat) :
    (curDihH cfg inp l).length = inp.dihedralAngles.length := by
  simp [curDihH, maskedIn, maskAttr, maskVecOpt_length]

theorem angleHW_length (cfg : EncCfg) (inp : EncIn) (t : Nat) :
    (angleHW cfg inp t).length = inp.bondAngles.length := by
  cases t with
  | zero => simp [angleHW, angle0, maskedIn, maskAttr, maskVecOpt_length]
  | succ l => simp [angleHW, blockApply_length, curAngleH_length]

theorem forward_without_eq (cfg : EncCfg) (inp : EncIn) (hwo : cfg.withoutDihedral = true) :
    forward cfg inp = Except.ok
      ⟨nodeHWO cfg inp cfg.nLayers, edgeHWO cfg inp cfg.nLayers, none, none,
       globalMeanPool (nodeHWO cfg inp cfg.nLayers) inp.atomBatch inp.numGraphs,
       traceWOUpTo cfg inp cfg.nLayers⟩ := by
  unfold forward
  rw [hwo, runWO_eq]
  simp [prefixList_getLastD, prefixList_getLast?_getD]

theorem forward_with_eq (cfg : EncCfg) (inp : EncIn) (m : Nat)
    (hwd : cfg.withoutDihedral = false) (hn : cfg.nLayers = m + 1) :
    forward cfg inp = Except.ok
      ⟨nodeHW cfg inp (m + 1), edgeHW cfg inp (m + 1),
       some (angleHW cfg inp (m + 1)), some (curDihH cfg inp m),
       globalMeanPool (nodeHW cfg inp (m + 1)) inp.atomBatch inp.numGraphs,
       traceWDUpTo cfg inp (m + 1)⟩ := by
  unfold forward
  rw [hwd, hn, runWD_eq]
  simp [prefixList_getLastD, prefixList_getLast?_getD]

theorem forward_with_zero_layers (cfg : EncCfg) (inp : EncIn)
    (hwd : cfg.withoutDihedral = false) (hn : cfg.nLayers = 0) :
    forward cfg inp = Except.error EncError.nameErrorCurDihedral := by
  unfold forward
  rw [hwd, hn, runWD_eq]
  simp

/-- C1 (amended): `EGeoGNNModel.forward` performs no batch-count
consistency check and defines no `BatchConsistencyError`: on any batch,
including every batch where `sum(num_bonds)` differs from the number of
bond rows or `sum(num_angles)` differs from the number of angle rows, it
still produces output (in any configuration whose layer loop can run). -/
theorem forward_ignores_batch_counts (cfg : EncCfg) (inp : EncIn)
    (hvar : cfg.withoutDihedral = true ∨ 1 ≤ cfg.nLayers)
    (hmis : inp.numBonds.sum ≠ inp.bondAttr.length ∨
      inp.numAngles.sum ≠ inp.bondAngles.length) :
    ∃ out, forward cfg inp = Except.ok out := by
  by_cases hw : cfg.withoutDihedral = true
  · exact ⟨_, forward_without_eq cfg inp hw⟩
  · have hwd : cfg.withoutDihedral = false := by
      cases hb : cfg.withoutDihedral
      · rfl
      · exact absurd hb hw
    have hn : 1 ≤ cfg.nLayers := by
      rcases hvar with h | h
      · exact absurd h hw
      · exact h
    rcases Nat.exists_eq_add_of_le hn with ⟨m, hm⟩
    exact ⟨_, forward_with_eq cfg inp m hwd (by omega)⟩

/-- C1 witness: the chain batch with `sum(num_bonds) = 5` but 3 bond rows
still yields output. -/
theorem forward_ignores_batch_counts_witness :
    (cfgNoDih.withoutDihedral = true ∨ 1 ≤ cfgNoDih.nLayers) ∧
      (inpMism.numBonds.sum ≠ inpMism.bondAttr.length ∨
        inpMism.numAngles.sum ≠ inpMism.bondAngles.length) ∧
      ∃ out, forward cfgNoDih inpMism = Except.ok out :=
  ⟨Or.inl rfl, Or.inl (by decide),
    forward_ignores_batch_counts cfgNoDih inpMism (Or.inl rfl) (Or.inl (by decide))⟩

/-- C1 counterexample: a concrete batch with mismatched bond counts on
which the forward pass succeeds — it does not raise any error, so in
particular no `BatchConsistencyError` (no such exception exists in the
source). -/
theorem forward_ok_on_mismatched_batch :
    inpMism.numBonds.sum ≠ inpMism.bondAttr.length ∧
      (forward cfgNoDih inpMism).toOption.isSome = true := by
  constructor
  · decide
  · rw [forward_without_eq cfgNoDih inpMism rfl]
    rfl

/-- C2 (amended): in the without-dihedral variant, each layer `l`'s
bond-angle message pass takes as its edge hidden states the layer-`l` RBF
re-embedding `bond_angle_float_rbf_list[l](bond_angles)` of the (masked)
raw bond angles — not a propagated `angle_hidden` list entry, and at
layer 0 not the initial bond-angle RBF embedding; the dihedral feature
refresh and the angle-dihedral pass are skipped. -/
theorem forward_without_dihedral_edge_input (cfg : EncCfg) (inp : EncIn) (l : Nat)
    (hwo : cfg.withoutDihedral = true) (hl : l < cfg.nLayers) :
    ∃ out, forward cfg inp = Except.ok out ∧
      (baCallsAt out.trace l).map BlockCall.edgeIn =
        [(maskVecOpt inp.mAngle inp.bondAngles).map (cfg.angleRBFList l)] := by
  refine ⟨_, forward_without_eq cfg inp hwo, ?_⟩
  rw [baCallsAt_traceWOUpTo cfg inp cfg.nLayers l, if_pos hl]
  rfl

/-- C2 witness: on the chain batch in the without-dihedral configuration,
layer 0's bond-angle pass receives the layer-0 re-embedding of the bond
angles. -/
theorem forward_without_dihedral_edge_input_witness :
    cfgNoDih.withoutDihedral = true ∧ 0 < cfgNoDih.nLayers ∧
      ∃ out, forward cfgNoDih inpChain = Except.ok out ∧
        (baCallsAt out.trace 0).map BlockCall.edgeIn =
          [(maskVecOpt inpChain.mAngle inpChain.bondAngles).map (cfgNoDih.angleRBFList 0)] :=
  ⟨rfl, by decide, forward_without_dihedral_edge_input cfgNoDih inpChain 0 rfl (by decide)⟩

/-- C2 counterexample: on the chain batch, the layer-0 bond-angle pass of
the without-dihedral variant receives `[[2], [2]]` (its own layer-0 RBF
table), which differs from the initial bond-angle RBF embedding
`[[1], [1]]` that the claim requires as `angle_hidden[0]`. -/
theorem forward_without_layer0_edge_input_ne_init :
    (forward cfgNoDih inpChain).toOption.map
        (fun o => (baCallsAt o.trace 0).map BlockCall.edgeIn) = some [[[2], [2]]] ∧
      inpChain.bondAngles.map cfgNoDih.initAngleRBF = [[1], [1]] ∧
      ([[(2 : ℚ)], [(2 : ℚ)]] : Mat) ≠ [[(1 : ℚ)], [(1 : ℚ)]] := by
  refine ⟨?_, by decide, by decide⟩
  rw [forward_without_eq cfgNoDih inpChain rfl]
  rw [Except.toOption, Option.map]
  rw [baCallsAt_traceWOUpTo cfgNoDih inpChain cfgNoDih.nLayers 0, if_pos (by decide)]
  decide

/-- C7: with `without_dihedral=True` the forward pass returns
`angle_repr = None` and `dihedral_repr = None`; with
`without_dihedral=False` (and a runnable layer loop) it returns both as
populated tensors whose leading dimensions are the number of bond angles
and the number of dihedral angles in the batch. -/
theorem forward_variant_outputs (cfg : EncCfg) (inp : EncIn) :
    (cfg.withoutDihedral = true →
      ∃ out, forward cfg inp = Except.ok out ∧
        out.angleRepr = none ∧ out.dihedralRepr = none) ∧
    (cfg.withoutDihedral = false → 1 ≤ cfg.nLayers →
      ∃ out a d, forward cfg inp = Except.ok out ∧
        out.angleRepr = some a ∧ out.dihedralRepr = some d ∧
        a.length = inp.bondAngles.length ∧
        d.length = inp.dihedralAngles.length) := by
  constructor
  · intro hwo
    exact ⟨_, forward_without_eq cfg inp hwo, rfl, rfl⟩
  · intro hwd hn
    rcases Nat.exists_eq_add_of_le hn with ⟨m, hm⟩
    refine ⟨_, angleHW cfg inp (m + 1), curDihH cfg inp m,
      forward_with_eq cfg inp m hwd (by omega), rfl, rfl, ?_, ?_⟩
    · exact angleHW_length cfg inp (m + 1)
    · exact curDihH_length cfg inp m

/-- C7 witness: the without-dihedral encoder returns no angle or dihedral
representation on the chain batch; the with-dihedral encoder returns both
with 2 bond-angle rows and 1 dihedral row. -/
theorem forward_variant_outputs_witness :
    (∃ out, forward cfgNoDih inpChain = Except.ok out ∧
      out.angleRepr = none ∧ out.dihedralRepr = none) ∧
    (∃ out a d, forward cfgD inpChain = Except.ok out ∧
      out.angleRepr = some a ∧ out.dihedralRepr = some d ∧
      a.length = inpChain.bondAngles.length ∧
      d.length = inpChain.dihedralAngles.length) :=
  ⟨(forward_variant_outputs cfgNoDih inpChain).1 rfl,
   (forward_variant_outputs cfgD inpChain).2 rfl (by decide)⟩

/-- C8: in every layer `l` of the with-dihedral forward pass, the node
input to the bond-angle message pass equals the layer-`l` re-embedding of
the raw (masked) bond features,
`bond_embedding_list[l](bond_attr) + bond_float_rbf_list[l](bond_lengths)`
— an expression depending only on the masked raw features and layer-`l`
tables, not on the previous layer's `edge_hidden` output. -/
theorem forward_bond_angle_node_input (cfg : EncCfg) (inp : EncIn) (l : Nat)
    (hwd : cfg.withoutDihedral = false) (hl : l < cfg.nLayers) :
    ∃ out, forward cfg inp = Except.ok out ∧
      (baCallsAt out.trace l).map BlockCall.nodeIn =
        [matAdd (embApply (cfg.bondEmbList l) (maskCat cfg.bondVocab inp.mBond inp.bondAttr))
          ((maskVecOpt inp.mBond inp.bondLengths).map (cfg.bondRBFList l))] := by
  have hn : 1 ≤ cfg.nLayers := by omega
  rcases Nat.exists_eq_add_of_le hn with ⟨m, hm⟩
  refine ⟨_, forward_with_eq cfg inp m hwd (by omega), ?_⟩
  have hl2 : l < m + 1 := by omega
  rw [baCallsAt_traceWDUpTo cfg inp (m + 1) l, if_pos hl2]
  rfl

/-- C8 witness: on the chain batch in the with-dihedral configuration,
layer 0's bond-angle pass receives the layer-0 re-embedding of the raw
bond features as its node input. -/
theorem forward_bond_angle_node_input_witness :
    cfgD.withoutDihedral = false ∧ 0 < cfgD.nLayers ∧
      ∃ out, forward cfgD inpChain = Except.ok out ∧
        (baCallsAt out.trace 0).map BlockCall.nodeIn =
          [matAdd (embApply (cfgD.bondEmbList 0) (maskCat cfgD.bondVocab inpChain.mBond inpChain.bondAttr))
            ((maskVecOpt inpChain.mBond inpChain.bondLengths).map (cfgD.bondRBFList 0))] :=
  ⟨rfl, by decide, forward_bond_angle_node_input cfgD inpChain 0 rfl (by decide)⟩

/-! ## Scatter-mean pooling lemmas -/

theorem scatterSumRows_getD :
    ∀ (pairs : List (Nat × List ℚ)) (acc : List (List ℚ)) (g : Nat),
      (∀ p ∈ pairs, p.1 < acc.length) → g < acc.length →
      (scatterSumRows pairs acc).getD g [] =
        ((pairs.filter (fun p => p.1 == g)).map Prod.snd).foldl vadd (acc.getD g []) := by
  intro pairs
  induction pairs with
  | nil => intro acc g hall hg; simp [scatterSumRows]
  | cons p t ih =>
      intro acc g hall hg
      have hstep : scatterSumRows (p :: t) acc =
          scatterSumRows t (acc.set p.1 (vadd (acc.getD p.1 []) p.2)) := rfl
      have hlen : (acc.set p.1 (vadd (acc.getD p.1 []) p.2)).length = acc.length := by
        simp
      have hall2 : ∀ q ∈ t, q.1 < (acc.set p.1 (vadd (acc.getD p.1 []) p.2)).length := by
        rw [hlen]
        intro q hq
        exact hall q (List.mem_cons_of_mem p hq)
      have hg2 : g < (acc.set p.1 (vadd (acc.getD p.1 []) p.2)).length := by
        rw [hlen]; exact hg
      rw [hstep, ih _ g hall2 hg2]
      by_cases hpg : p.1 = g
      · have hset : (acc.set p.1 (vadd (acc.getD p.1 []) p.2)).getD g [] =
            vadd (acc.getD p.1 []) p.2 := by
          rw [← hpg]
          exact egGetD_set_self acc p.1 _ [] (hall p (List.mem_cons_self p t))
        rw [hset, ← hpg]
        simp [List.filter_cons, hpg]
      · have hset : (acc.set p.1 (vadd (acc.getD p.1 []) p.2)).getD g [] =
            acc.getD g [] :=
          egGetD_set_ne acc p.1 g _ [] (fun h => hpg h.symm)
        rw [hset]
        simp [List.filter_cons, hpg]

theorem scatterCounts_getD :
    ∀ (batch : List Nat) (acc : List Nat) (g : Nat),
      (∀ b ∈ batch, b < acc.length) → g < acc.length →
      (scatterCounts batch acc).getD g 0 =
        acc.getD g 0 + (batch.filter (fun b => b == g)).length := by
  intro batch
  induction batch with
  | nil => intro acc g hall hg; simp [scatterCounts]
  | cons b t ih =>
      intro acc g hall hg
      have hstep : scatterCounts (b :: t) acc =
          scatterCounts t (acc.set b (acc.getD b 0 + 1)) := rfl
      have hlen : (acc.set b (acc.getD b 0 + 1)).length = acc.length := by simp
      have hall2 : ∀ c ∈ t, c < (acc.set b (acc.getD b 0 + 1)).length := by
        rw [hlen]
        intro c hc
        exact hall c (List.mem_cons_of_mem b hc)
      have hg2 : g < (acc.set b (acc.getD b 0 + 1)).length := by
        rw [hlen]; exact hg
      rw [hstep, ih _ g hall2 hg2]
      by_cases hbg : b = g
      · have hset : (acc.set b (acc.getD b 0 + 1)).getD g 0 = acc.getD b 0 + 1 := by
          rw [← hbg]
          exact egGetD_set_self acc b _ 0 (hall b (List.mem_cons_self b t))
        rw [hset, ← hbg]
        simp [List.filter_cons, hbg]
        omega
      · have hset : (acc.set b (acc.getD b 0 + 1)).getD g 0 = acc.getD g 0 :=
          egGetD_set_ne acc b g _ 0 (fun h => hbg h.symm)
        rw [hset]
        simp [List.filter_cons, hbg]

theorem zip_filter_length :
    ∀ (batch : List Nat) (x : Mat), batch.length = x.length → ∀ g : Nat,
      ((batch.zip x).filter (fun p => p.1 == g)).length =
        (batch.filter (fun b => b == g)).length := by
  intro batch
  induction batch with
  | nil => intro x h g; simp
  | cons b t ih =>
      intro x h g
      rcases x with _ | ⟨y, ys⟩
      · simp at h
      · have h2 : t.length = ys.length := by simpa using h
        by_cases hbg : b = g
        · simp [List.filter_cons, hbg, ih ys h2 g]
        · simp [List.filter_cons, hbg, ih ys h2 g]

theorem globalMeanPool_length (x : Mat) (batch : List Nat) (size : Nat) :
    (globalMeanPool x batch size).length = size := by
  simp [globalMeanPool]

theorem globalMeanPool_getD (x : Mat) (batch : List Nat) (size g : Nat)
    (hg : g < size) (hb : ∀ b ∈ batch, b < size) (hlen : batch.length = x.length)
    (hpos : 0 < (groupRows x batch g).length) :
    (globalMeanPool x batch size).getD g [] = groupMean x batch g := by
  unfold globalMeanPool
  rw [egGetD_range_map _ _ _ _ hg]
  have hcnt : (scatterCounts batch (List.replicate size 0)).getD g 0 =
      (batch.filter (fun b => b == g)).length := by
    rw [scatterCounts_getD batch _ g (by simpa using hb) (by simpa using hg),
      egGetD_replicate _ _ _ _ hg]
    omega
  have hflen : (batch.filter (fun b => b == g)).length =
      (groupRows x batch g).length := by
    unfold groupRows
    rw [List.length_map, zip_filter_length batch x hlen g]
  have hzip : ∀ p ∈ batch.zip x, p.1 < (List.replicate size ([] : List ℚ)).length := by
    intro p hp
    have hmem : p.1 ∈ batch := (List.of_mem_zip hp).1
    simpa using hb p.1 hmem
  have hsum : (scatterSumRows (batch.zip x) (List.replicate size [])).getD g [] =
      vsumL (groupRows x batch g) := by
    rw [scatterSumRows_getD (batch.zip x) _ g hzip (by simpa using hg),
      egGetD_replicate _ _ _ _ hg]
    rfl
  rw [hcnt, hflen, hsum, if_neg (by omega)]
  rfl

theorem forward_ok_graphRepr (cfg : EncCfg) (inp : EncIn) (out : ForwardOut)
    (hok : forward cfg inp = Except.ok out) :
    out.graphRepr = globalMeanPool out.nodeRepr inp.atomBatch inp.numGraphs := by
  by_cases hw : cfg.withoutDihedral = true
  · rw [forward_without_eq cfg inp hw] at hok
    have h := Except.ok.inj hok
    subst h
    rfl
  · have hwd : cfg.withoutDihedral = false := by
      cases hb : cfg.withoutDihedral
      · rfl
      · exact absurd hb hw
    rcases hn : cfg.nLayers with _ | m
    · rw [forward_with_zero_layers cfg inp hwd hn] at hok
      exact Except.noConfusion hok
    · rw [forward_with_eq cfg inp m hwd hn] at hok
      have h := Except.ok.inj hok
      subst h
      rfl

/-- C9: on every batch the forward pass returns a `graph_repr` with
exactly `num_graphs` rows, and row `g` is the arithmetic mean of the
`node_repr` rows whose `atom_batch` entry is `g` (for every molecule `g`
that has at least one atom, under the well-formed-batch conditions that
`atom_batch` assigns each of the `node_repr` rows a graph id below
`num_graphs`). -/
theorem forward_graph_mean_pool (cfg : EncCfg) (inp : EncIn) (out : ForwardOut)
    (hok : forward cfg inp = Except.ok out) :
    out.graphRepr.length = inp.numGraphs ∧
    ∀ g, g < inp.numGraphs → inp.atomBatch.length = out.nodeRepr.length →
      (∀ b ∈ inp.atomBatch, b < inp.numGraphs) →
      0 < (groupRows out.nodeRepr inp.atomBatch g).length →
      out.graphRepr.getD g [] = groupMean out.nodeRepr inp.atomBatch g := by
  have hgr := forward_ok_graphRepr cfg inp out hok
  constructor
  · rw [hgr]
    exact globalMeanPool_length _ _ _
  · intro g hg hlen hb hpos
    rw [hgr]
    exact globalMeanPool_getD out.nodeRepr inp.atomBatch inp.numGraphs g hg hb hlen hpos

/-- C9 witness: on the two-molecule batch with 3 and 5 atoms,
`graph_repr` has 2 rows and row 0 is the mean of molecule 0's
`node_repr` rows. -/
theorem forward_graph_mean_pool_witness :
    forward cfgPool inpPool = Except.ok outPool ∧
      (0 : Nat) < inpPool.numGraphs ∧
      inpPool.atomBatch.length = outPool.nodeRepr.length ∧
      (∀ b ∈ inpPool.atomBatch, b < inpPool.numGraphs) ∧
      0 < (groupRows outPool.nodeRepr inpPool.atomBatch 0).length ∧
      outPool.graphRepr.length = 2 ∧
      outPool.graphRepr.getD 0 [] = groupMean outPool.nodeRepr inpPool.atomBatch 0 := by
  have hok : forward cfgPool inpPool = Except.ok outPool := by rfl
  have h := forward_graph_mean_pool cfgPool inpPool outPool hok
  refine ⟨hok, by decide, by decide, by decide, by decide, ?_, ?_⟩
  · exact h.1
  · exact h.2 0 (by decide) (by decide) (by decide) (by decide)

end Egem
